import Mathlib

/-!
Shallow embedding of the hybrid retrieval and resilience core of the
StudyTutor repository (tutor/core): reciprocal rank fusion
(retrieval.py), cross-query deduplication and query expansion
(multi_query.py), the TTL cache (cache_manager.py), the circuit breaker
and the Wikimedia client header validation (wikimedia_retriever.py), the
external-augmentation heuristic (knowledge_sources.py), and the retrieval
orchestrator (retrieval.py). Similarity scores and timestamps are
modelled as rationals; Python dicts are modelled as insertion-ordered
association lists; the injected collaborators (embedding function, FAISS
index, BM25 model, LLM) are modelled as oracle parameters, with returned
None standing for a raised exception.
-/

namespace StudyTutor

/-! ### String helpers modelling Python str methods -/

/-- Python str.lower, modelled per character on the underlying char list. -/
def strLower (s : String) : String := ⟨s.data.map Char.toLower⟩

/-- Python str.strip with an arbitrary character predicate: drop matching
characters from both ends of the string. -/
def trimBy (p : Char → Bool) (s : String) : String :=
  ⟨(((s.data.dropWhile p).reverse).dropWhile p).reverse⟩

/-- Python str.strip() with no arguments (whitespace on both ends). -/
def strTrim (s : String) : String := trimBy Char.isWhitespace s

/-- Python str.rstrip with a character predicate: drop matching characters
from the right end only. -/
def rtrimBy (p : Char → Bool) (s : String) : String :=
  ⟨(s.data.reverse.dropWhile p).reverse⟩

/-- Python str.startswith. -/
def strStartsWith (s pat : String) : Bool := pat.data.isPrefixOf s.data

/-- Python s.split() with no arguments: split on whitespace runs and drop
empty pieces. -/
def splitWs (s : String) : List String :=
  ((s.data.splitOnP Char.isWhitespace).map (fun cs => (⟨cs⟩ : String))).filter
    (fun w => w ≠ "")

/-- Python " ".join(s.split()): collapse internal whitespace. -/
def collapseWs (s : String) : String := String.intercalate " " (splitWs s)

/-- The tokenizer of retrieval.py: case-folded maximal alphanumeric or
underscore runs (the regex [A-Za-z0-9_]+ followed by str.lower). -/
def pyTokenize (s : String) : List String :=
  ((s.data.splitOnP (fun c => !(c.isAlphanum || c = '_'))).map
      (fun cs => strLower ⟨cs⟩)).filter (fun w => w ≠ "")

/-! ### Chunk metadata and chunk identity -/

/-- Chunk metadata record (one entry of the metadata list). The id field is
optional; Python treats a missing id and an empty id string alike (falsy). -/
structure Meta where
  id : Option String
  source : String
  page : Int
  chunk_index : Int
  text : String
deriving DecidableEq, Repr

/-- The fallback composite identity key source_page_chunkindex used by both
retrieval.py and multi_query.py when the id field is falsy. -/
def chunk_fallback_key (m : Meta) : String :=
  m.source ++ "_" ++ toString m.page ++ "_" ++ toString m.chunk_index

/-- chunk identity from retrieval.py (and inlined in multi_query.py): the id
field when truthy, else the composite fallback key. -/
def chunk_identifier (m : Meta) : String :=
  match m.id with
  | some s => if s = "" then chunk_fallback_key m else s
  | none => chunk_fallback_key m

/-! ### Insertion-ordered association lists (Python dict model) -/

/-- Update the value under a key in an insertion-ordered association list,
inserting the freshly made value at the end when the key is absent. This is
the dict access pattern of rrf_fuse and deduplicate_results. -/
def updAssoc {β : Type} (key : String) (upd : β → β) (mk : β) :
    List (String × β) → List (String × β)
  | [] => [(key, mk)]
  | (c, v) :: rest =>
    if c = key then (c, upd v) :: rest else (c, v) :: updAssoc key upd mk rest

/-- Lookup in an association list (first match, as in a Python dict whose
keys are unique). -/
def assocGet? {β : Type} : List (String × β) → String → Option β
  | [], _ => none
  | (c, v) :: rest, key => if c = key then some v else assocGet? rest key

/-- Deletion from an association list (first match), modelling del on a
Python dict. -/
def assocErase {β : Type} : List (String × β) → String → List (String × β)
  | [], _ => []
  | (c, v) :: rest, key => if c = key then rest else (c, v) :: assocErase rest key

/-! ### Stable descending sort by score (Python sorted with reverse=True) -/

/-- The ordering used by both rrf_fuse and deduplicate_results: compare the
score component only, larger first. Python sorted and list.sort are stable,
which matches insertion sort with this relation. -/
def scoreDescRel (a b : ℚ × Meta) : Prop := b.1 ≤ a.1

instance : DecidableRel scoreDescRel := fun a b => inferInstanceAs (Decidable (b.1 ≤ a.1))

instance : IsTotal (ℚ × Meta) scoreDescRel := ⟨fun a b => le_total b.1 a.1⟩

instance : IsTrans (ℚ × Meta) scoreDescRel := ⟨fun _ _ _ h1 h2 => le_trans h2 h1⟩

/-- Stable sort of (score, chunk) pairs, descending by score. -/
def sortDescQ (l : List (ℚ × Meta)) : List (ℚ × Meta) := l.insertionSort scoreDescRel

/-! ### Reciprocal Rank Fusion (retrieval.py, rrf_fuse) -/

/-- add_contributions of rrf_fuse: walk one ranked hit list, rank starting
at 1, adding 1/(K + rank) to the accumulated score of the chunk identity of
each hit. The first hit seen for an identity also records its metadata. -/
def rrfAddList (K : ℚ) : Nat → List (ℚ × Meta) → List (String × Meta × ℚ) →
    List (String × Meta × ℚ)
  | _, [], fused => fused
  | rank, (_, m) :: rest, fused =>
    rrfAddList K (rank + 1) rest
      (updAssoc (chunk_identifier m)
        (fun v => (v.1, v.2 + 1 / (K + (rank : ℚ))))
        (m, 0 + 1 / (K + (rank : ℚ))) fused)

/-- The fused score table of rrf_fuse: vector hits contribute first, then
lexical hits, both with 1-based ranks. -/
def rrfTable (K : ℚ) (vector_hits lexical_hits : List (ℚ × Meta)) :
    List (String × Meta × ℚ) :=
  rrfAddList K 1 lexical_hits (rrfAddList K 1 vector_hits [])

/-- Accumulated score stored under a chunk identity in a fused table (0 when
the identity is absent). -/
def assocScore (l : List (String × Meta × ℚ)) (cid : String) : ℚ :=
  match assocGet? l cid with
  | some v => v.2
  | none => 0

/-- The fused score rrf_fuse assigns to a chunk identity (0 when absent from
the table). -/
def rrfTableScore (K : ℚ) (vector_hits lexical_hits : List (ℚ × Meta))
    (cid : String) : ℚ :=
  assocScore (rrfTable K vector_hits lexical_hits) cid

/-- rrf_fuse of retrieval.py: build the fused table, order the (score, meta)
pairs by descending score, truncate to k. -/
def rrf_fuse (vector_hits lexical_hits : List (ℚ × Meta)) (k : Nat) (K : ℚ) :
    List (ℚ × Meta) :=
  (sortDescQ ((rrfTable K vector_hits lexical_hits).map
    (fun e => (e.2.2, e.2.1)))).take k

/-- The reciprocal-rank mass a single ranked list gives to a chunk identity:
the sum of 1/(K + rank) over the 1-based ranks at which the identity occurs
(0 when the list does not contain it). This is the spec-side sum used to
state the RRF formula. -/
def listContrib (K : ℚ) : Nat → List (ℚ × Meta) → String → ℚ
  | _, [], _ => 0
  | rank, (_, m) :: rest, cid =>
    (if chunk_identifier m = cid then 1 / (K + (rank : ℚ)) else 0) +
      listContrib K (rank + 1) rest cid

/-- The identity occurs in the hit list exactly once, at the given 1-based
position. -/
def occursOnceAt (hits : List (ℚ × Meta)) (cid : String) (i : Nat) : Prop :=
  ∃ pre c post, hits = pre ++ c :: post ∧ chunk_identifier c.2 = cid ∧
    i = pre.length + 1 ∧
    cid ∉ pre.map (fun h => chunk_identifier h.2) ∧
    cid ∉ post.map (fun h => chunk_identifier h.2)

/-! ### Cross-query deduplication (multi_query.py, deduplicate_results) -/

/-- The grouping loop of deduplicate_results: fold over (score, meta) pairs,
appending each score to the score list of its chunk identity; the first hit
of a group records the metadata. -/
def dedupGroupsAux (acc : List (String × Meta × List ℚ)) :
    List (ℚ × Meta) → List (String × Meta × List ℚ)
  | [] => acc
  | (s, m) :: rest =>
    dedupGroupsAux
      (updAssoc (chunk_identifier m) (fun v => (v.1, v.2 ++ [s])) (m, [s]) acc) rest

/-- Groups of deduplicate_results in insertion order. -/
def dedupGroups (hits : List (ℚ × Meta)) : List (String × Meta × List ℚ) :=
  dedupGroupsAux [] hits

/-- The score list stored under a chunk identity in a grouping table (empty
when the identity is absent). -/
def groupScores (gs : List (String × Meta × List ℚ)) (cid : String) : List ℚ :=
  match assocGet? gs cid with
  | some v => v.2
  | none => []

/-- Python max over a list of scores (groups are never empty). -/
def listMax : List ℚ → ℚ
  | [] => 0
  | [x] => x
  | x :: y :: rest => max x (listMax (y :: rest))

/-- The occurrence bonus min(0.1, count * 0.02) of deduplicate_results. -/
def occurrence_bonus (count : Nat) : ℚ := min (1 / 10) ((count : ℚ) * (2 / 100))

/-- Final score of one group: max raw score plus the occurrence bonus. -/
def groupFinalScore (g : String × Meta × List ℚ) : ℚ :=
  listMax g.2.2 + occurrence_bonus g.2.2.length

/-- The candidate (final score, meta) list of deduplicate_results before
sorting, in group insertion order. -/
def dedupCandidates (hits : List (ℚ × Meta)) : List (ℚ × Meta) :=
  (dedupGroups hits).map (fun g => (groupFinalScore g, g.2.1))

/-- deduplicate_results of multi_query.py. -/
def deduplicate_results (all_results : List (ℚ × Meta)) (top_k : Nat) :
    List (ℚ × Meta) :=
  if all_results = [] then []
  else (sortDescQ (dedupCandidates all_results)).take top_k

/-- Spec-side score of the group of a chunk identity, stated directly over
the flat input: the max of the raw scores of the hits with that identity
plus the occurrence bonus for their number. -/
def dedupSpecScore (hits : List (ℚ × Meta)) (cid : String) : ℚ :=
  listMax ((hits.filter (fun p => chunk_identifier p.2 = cid)).map Prod.fst) +
    occurrence_bonus (hits.filter (fun p => chunk_identifier p.2 = cid)).length

/-! ### Query expansion (multi_query.py, generate_multi_queries) -/

/-- The heuristic fallback generate_with_heuristics. String literals follow
the source; the apostrophe is written with an escape. -/
def generate_with_heuristics (original_query : String) (num_variations : Nat) :
    List String :=
  let query_lower := strTrim (strLower original_query)
  let without_question := strTrim (rtrimBy (fun c => c = '?') original_query)
  let qmarkSpace : Char → Bool := fun c => c = '?' || c = ' '
  let variations : List String :=
    if strStartsWith query_lower "what is" || strStartsWith query_lower "what are" ||
        strStartsWith query_lower "what\x27s" then
      let topic := trimBy qmarkSpace
        (((query_lower.replace "what is" "").replace "what are" "").replace "what\x27s" "")
      if topic ≠ "" then
        ["Explain " ++ topic, topic ++ " definition and explanation"]
      else []
    else if strStartsWith query_lower "how does" || strStartsWith query_lower "how do" ||
        strStartsWith query_lower "how to" then
      let topic := trimBy qmarkSpace
        ((((query_lower.replace "how does" "").replace "how do" "").replace "how to" "").replace "work" "")
      if topic ≠ "" then
        [topic ++ " mechanism and process", "Understanding " ++ topic]
      else []
    else if strStartsWith query_lower "why" then
      let topic := trimBy qmarkSpace (query_lower.replace "why" "")
      if topic ≠ "" then
        ["Reasons for " ++ topic, topic ++ " explanation and causes"]
      else []
    else []
  let variations :=
    if variations.length < num_variations then
      variations ++ ["Key information about " ++ without_question]
    else variations
  let variations :=
    if variations.length < num_variations then
      let simplified := collapseWs
        (((((without_question.replace "please" "").replace "could you" "").replace
            "can you" "").replace "would you" "").replace "tell me" "")
      if simplified ≠ original_query then variations ++ [simplified] else variations
    else variations
  variations.take num_variations

/-- The order-preserving deduplication loop at the end of
generate_multi_queries: keep the stripped form of each query whose
lowercased stripped form is nonempty and not seen before. -/
def dedupQueries : List String → List String → List String
  | [], _ => []
  | q :: rest, seen =>
    let qn := strLower (strTrim q)
    if qn ≠ "" ∧ qn ∉ seen then strTrim q :: dedupQueries rest (qn :: seen)
    else dedupQueries rest seen

/-- The raw query list generate_multi_queries assembles before
deduplication: the original first, then either the LLM-generated variants
(the llm parameter, none standing for a raised exception) or the heuristic
variants. -/
def expansionInputs (original_query : String) (num_queries : Nat)
    (use_llm : Bool) (llm : Option (List String)) : List String :=
  original_query ::
    (if use_llm then
      match llm with
      | some generated => generated
      | none => generate_with_heuristics original_query (num_queries - 1)
    else generate_with_heuristics original_query (num_queries - 1))

/-- generate_multi_queries of multi_query.py, with the LLM modelled as an
oracle value. -/
def generate_multi_queries (original_query : String) (num_queries : Nat)
    (use_llm : Bool) (llm : Option (List String)) : List String :=
  if strTrim original_query = "" then [original_query]
  else
    (dedupQueries (expansionInputs original_query num_queries use_llm llm) []).take
      num_queries

/-! ### Circuit breaker (wikimedia_retriever.py, CircuitBreaker) -/

inductive CircuitState where
  | CLOSED
  | OPEN
  | HALF_OPEN
deriving DecidableEq, Repr

/-- The CircuitBreaker object state: configuration plus mutable fields. -/
structure CBState where
  failure_threshold : Nat
  timeout : ℚ
  success_threshold : Nat
  state : CircuitState
  failures : Nat
  successes : Nat
  last_failure_time : Option ℚ
deriving DecidableEq, Repr

/-- Outcome of CircuitBreaker.call: the wrapped call succeeded, the wrapped
call raised (and the error was re-raised), or the call was rejected with
CircuitBreakerOpenError without invoking the function. -/
inductive CallOutcome where
  | ok
  | err
  | rejected
deriving DecidableEq, Repr

/-- The locked entry check of CircuitBreaker.call: when OPEN, transition to
HALF_OPEN if strictly more than timeout seconds passed since the last
failure, else reject (none). Any other state passes through unchanged. -/
def cb_gate (s : CBState) (now : ℚ) : Option CBState :=
  match s.state with
  | CircuitState.OPEN =>
    match s.last_failure_time with
    | some t =>
      if now - t > s.timeout then some { s with state := CircuitState.HALF_OPEN }
      else none
    | none => none
  | _ => some s

/-- CircuitBreaker on_success. -/
def cb_on_success (s : CBState) : CBState :=
  if s.state = CircuitState.HALF_OPEN then
    let succ := s.successes + 1
    if s.success_threshold ≤ succ then
      { s with state := CircuitState.CLOSED, failures := 0, successes := 0 }
    else { s with successes := succ }
  else { s with failures := 0 }

/-- CircuitBreaker on_failure, recording the failure time. -/
def cb_on_failure (s : CBState) (now : ℚ) : CBState :=
  let f := s.failures + 1
  let s1 := { s with failures := f, last_failure_time := some now }
  if s.failure_threshold ≤ f then
    { s1 with state := CircuitState.OPEN, successes := 0 }
  else s1

/-- CircuitBreaker.call at a given time; the boolean argument tells whether
the wrapped function would succeed. Returns the outcome, whether the wrapped
function was invoked, and the new breaker state. -/
def cb_call (s : CBState) (now : ℚ) (funcSucceeds : Bool) :
    CallOutcome × Bool × CBState :=
  match cb_gate s now with
  | none => (CallOutcome.rejected, false, s)
  | some s1 =>
    if funcSucceeds then (CallOutcome.ok, true, cb_on_success s1)
    else (CallOutcome.err, true, cb_on_failure s1 now)

/-- Run a sequence of calls, each given as (time, wrapped call succeeds). -/
def cb_run (s : CBState) (calls : List (ℚ × Bool)) : CBState :=
  calls.foldl (fun st c => (cb_call st c.1 c.2).2.2) s

/-! ### TTL cache (cache_manager.py, TTLCache) -/

/-- TTLCache state: the dict is an insertion-ordered association list of
key to (inserted-at timestamp, value). -/
structure TTLCache (V : Type) where
  max_size : Nat
  ttl : ℚ
  cache : List (String × ℚ × V)
  hits : Nat
  misses : Nat

/-- TTLCache.get at a given clock time: a missing key is a miss; a present
key whose age strictly exceeds the ttl is deleted and counted as a miss;
otherwise the value is returned and counted as a hit. -/
def TTLCache.get {V : Type} (c : TTLCache V) (key : String) (now : ℚ) :
    Option V × TTLCache V :=
  match assocGet? c.cache key with
  | none => (none, { c with misses := c.misses + 1 })
  | some e =>
    if now - e.1 > c.ttl then
      (none,
        { c with
          cache := assocErase c.cache key
          misses := c.misses + 1 })
    else (some e.2, { c with hits := c.hits + 1 })

/-! ### Wikimedia client construction (wikimedia_retriever.py) -/

/-- The User-Agent validation in WikimediaRetriever.__init__: construction
is accepted exactly when the header is present, truthy, at least 20
characters long and contains an @ character. -/
def wikimedia_user_agent_ok (user_agent : Option String) : Bool :=
  match user_agent with
  | none => false
  | some ua => !(ua == "") && decide (20 ≤ ua.length) && ua.data.contains '@'

/-! ### External augmentation heuristic (knowledge_sources.py) -/

/-- should_query_wikimedia: trigger phrases checked on the lowercased query,
else at least two capitalized words of length above one. The enabled flag
models the WIKIMEDIA_ENABLED configuration value. -/
def should_query_wikimedia (enabled : Bool) (query : String) : Bool :=
  if !enabled then false
  else
    let query_lower := strLower query
    let triggers := ["what is", "who is", "define", "explain", "describe",
      "tell me about"]
    if triggers.any (fun t => strStartsWith query_lower t) then true
    else
      let words := splitWs query
      let capitalized := (words.filter
        (fun w => decide (1 < w.length) &&
          (match w.data with
           | [] => false
           | ch :: _ => ch.isUpper))).length
      decide (2 ≤ capitalized)

/-! ### Retrieval orchestrator (retrieval.py, retrieve) -/

/-- The injected collaborators of retrieve, as oracles. A returned none
models a raised exception at that call. embed_search combines the embedding
call and the FAISS index search into one fallible step returning
(similarity, row id) pairs; bm25_scores models bm25.get_scores on a token
list; llm_queries models the LLM variant generation. -/
structure Oracles where
  embed_search : String → Option (List (ℚ × Int))
  bm25_scores : List String → Option (List ℚ)
  llm_queries : String → Option (List String)

/-- Ascending-by-score relation on (row index, score) pairs, used to model
numpy argsort followed by reversal in lexical search. -/
def idxScoreAscRel (a b : Nat × ℚ) : Prop := a.2 ≤ b.2

instance : DecidableRel idxScoreAscRel := fun a b => inferInstanceAs (Decidable (a.2 ≤ b.2))

/-- np.argsort(scores)[::-1]: indices sorted ascending by score, reversed. -/
def argsortRev (scores : List ℚ) : List Nat :=
  ((scores.enum.insertionSort idxScoreAscRel).reverse).map Prod.fst

/-- vector_search of retrieval.py: one fallible embed-plus-index step, then
filter out id -1 and out-of-range rows. The second component is the trace of
collaborator invocations. -/
def vector_search (o : Oracles) (metas : List Meta) (query : String) :
    List (ℚ × Meta) × List String :=
  match o.embed_search query with
  | none => ([], ["embed:" ++ query])
  | some pairs =>
    (pairs.filterMap (fun p =>
      if p.2 = -1 then none
      else if 0 ≤ p.2 then (metas.get? p.2.toNat).map (fun m => (p.1, m))
      else none), ["embed:" ++ query])

/-- lexical_search of retrieval.py: tokenize; an empty token list returns
empty without scoring; a raised or empty score vector returns empty; else
take the k highest-scoring rows by reversed argsort. -/
def lexical_search (o : Oracles) (metas : List Meta) (query : String) (k : Nat) :
    List (ℚ × Meta) × List String :=
  let tokens := pyTokenize query
  if tokens = [] then ([], [])
  else
    match o.bm25_scores tokens with
    | none => ([], ["bm25:" ++ query])
    | some scores =>
      if scores = [] then ([], ["bm25:" ++ query])
      else
        (((argsortRev scores).take k).filterMap (fun idx =>
          match scores.get? idx, metas.get? idx with
          | some sc, some m => some (sc, m)
          | _, _ => none), ["bm25:" ++ query])

/-- single_query_retrieve of retrieval.py: vector search, lexical search
when hybrid is enabled, RRF fusion when both produced hits, else whichever
is nonempty (lexical truncated to k). -/
def single_query_retrieve (o : Oracles) (metas : List Meta) (query : String)
    (k : Nat) (hybrid_enabled : Bool) (rrf_constant : ℚ) :
    List (ℚ × Meta) × List String :=
  let v := vector_search o metas query
  let l := if hybrid_enabled then lexical_search o metas query k else ([], [])
  let res :=
    if v.1 ≠ [] ∧ l.1 ≠ [] then rrf_fuse v.1 l.1 k rrf_constant
    else if l.1 ≠ [] then l.1.take k
    else v.1
  (res, v.2 ++ l.2)

/-- The RRF_K configuration default. -/
def RRF_K : ℚ := 60

/-- retrieve of retrieval.py. A blank query returns empty at once. The
multi-query path expands the query (the LLM oracle is consulted first, its
trace entry recorded), retrieves per variant, and deduplicates; when every
variant produced nothing it falls back to a single-query retrieval of the
original. The rrf_k override follows the Python or-expression: a none or
zero override falls back to RRF_K. -/
def retrieve (o : Oracles) (metas : List Meta) (query : String) (k : Nat)
    (use_multi_query : Bool) (num_query_variations : Nat)
    (hybrid_enabled : Bool) (rrf_k : Option ℚ) :
    List (ℚ × Meta) × List String :=
  if strTrim query = "" then ([], [])
  else
    let rrf_constant := match rrf_k with
      | some x => if x = 0 then RRF_K else x
      | none => RRF_K
    if use_multi_query then
      let queries := generate_multi_queries query num_query_variations true
        (o.llm_queries query)
      let step := queries.foldl
        (fun (acc : List (ℚ × Meta) × List String) q =>
          let r := single_query_retrieve o metas q k hybrid_enabled rrf_constant
          (acc.1 ++ r.1, acc.2 ++ r.2))
        ([], ["llm:" ++ query])
      if step.1 ≠ [] then (deduplicate_results step.1 k, step.2)
      else
        let r := single_query_retrieve o metas query k hybrid_enabled rrf_constant
        (r.1, step.2 ++ r.2)
    else
      single_query_retrieve o metas query k hybrid_enabled rrf_constant

/-! ### Concrete chunks and inputs used by witnesses and counterexamples -/

/-- Concrete chunk A. -/
def chunkA : Meta := ⟨some "A", "doc", 1, 0, "alpha text"⟩

/-- Concrete chunk B. -/
def chunkB : Meta := ⟨some "B", "doc", 2, 1, "beta text"⟩

/-- The section 8 deduplicator example input: hits from the query variants,
flattened. -/
def dedupExampleHits : List (ℚ × Meta) :=
  [(9 / 10, chunkA), (7 / 10, chunkA), (8 / 10, chunkB)]

/-- An oracle assignment used by witnesses. -/
def oracles0 : Oracles :=
  ⟨fun _ => none, fun _ => none, fun _ => none⟩

/-- A concrete vector hit list: chunk A first, chunk B second. -/
def rrfVec0 : List (ℚ × Meta) := [(9 / 10, chunkA), (1 / 2, chunkB)]

/-- A concrete lexical hit list: chunk B first, chunk A second. -/
def rrfLex0 : List (ℚ × Meta) := [(3, chunkB), (2, chunkA)]

/-- A single hit with a negative raw similarity score. -/
def negHits : List (ℚ × Meta) := [(-1, chunkA)]

/-- A fresh circuit breaker: thresholds 2, timeout 60 seconds, CLOSED. -/
def cbStart : CBState := ⟨2, 60, 2, CircuitState.CLOSED, 0, 0, none⟩

/-- A tripped circuit breaker: OPEN after two failures, last failure at 0. -/
def cbOpen : CBState := ⟨2, 60, 2, CircuitState.OPEN, 2, 0, some 0⟩

/-- A probing circuit breaker: HALF_OPEN with no successes yet. -/
def cbHalf : CBState := ⟨2, 60, 2, CircuitState.HALF_OPEN, 2, 0, some 0⟩

/-- A TTL cache holding one entry inserted at time 0, ttl 10 seconds. -/
def cache0 : TTLCache Nat := ⟨500, 10, [("k", 0, 42)], 0, 0⟩

/-! ## Lemmas: association lists -/

theorem assocGet?_updAssoc {β : Type} (key : String) (upd : β → β) (mk : β) :
    ∀ (l : List (String × β)) (k : String),
    assocGet? (updAssoc key upd mk l) k =
      if k = key then
        (match assocGet? l key with
         | some v => some (upd v)
         | none => some mk)
      else assocGet? l k
  | [], k => by
    by_cases h : k = key
    · simp [assocGet?, updAssoc, h]
    · simp [assocGet?, updAssoc, h, Ne.symm h]
  | (c, v) :: rest, k => by
    by_cases hc : c = key
    · subst hc
      by_cases hk : k = c
      · simp [assocGet?, updAssoc, hk]
      · simp [assocGet?, updAssoc, hk, Ne.symm hk]
    · by_cases hk : k = c
      · subst hk
        simp [assocGet?, updAssoc, hc, Ne.symm hc]
      · simp [assocGet?, updAssoc, hc, Ne.symm hk, assocGet?_updAssoc key upd mk rest k]

theorem keys_updAssoc {β : Type} (key : String) (upd : β → β) (mk : β) :
    ∀ (l : List (String × β)),
    (updAssoc key upd mk l).map Prod.fst =
      if key ∈ l.map Prod.fst then l.map Prod.fst else l.map Prod.fst ++ [key]
  | [] => by simp [updAssoc]
  | (c, v) :: rest => by
    by_cases hc : c = key
    · subst hc; simp [updAssoc]
    · have := keys_updAssoc key upd mk rest
      by_cases hk : key ∈ rest.map Prod.fst <;>
        simp [updAssoc, hc, Ne.symm hc, hk, this]

theorem nodup_keys_updAssoc {β : Type} (key : String) (upd : β → β) (mk : β)
    (l : List (String × β)) (h : (l.map Prod.fst).Nodup) :
    ((updAssoc key upd mk l).map Prod.fst).Nodup := by
  rw [keys_updAssoc]
  by_cases hk : key ∈ l.map Prod.fst
  · simpa [hk] using h
  · simp [hk, List.nodup_append, h]

theorem mem_keys_updAssoc {β : Type} (key : String) (upd : β → β) (mk : β)
    (l : List (String × β)) (cid : String) :
    cid ∈ (updAssoc key upd mk l).map Prod.fst ↔
      cid ∈ l.map Prod.fst ∨ cid = key := by
  rw [keys_updAssoc]
  by_cases hk : key ∈ l.map Prod.fst
  · simp only [if_pos hk]
    constructor
    · exact Or.inl
    · rintro (h | rfl)
      · exact h
      · exact hk
  · simp [hk]

theorem forall_updAssoc {β : Type} {P : String × β → Prop} (key : String)
    (upd : β → β) (mk : β) :
    ∀ (l : List (String × β)), (∀ e ∈ l, P e) → P (key, mk) →
    (∀ v, P (key, v) → P (key, upd v)) →
    ∀ e ∈ updAssoc key upd mk l, P e
  | [], _, hmk, _ => by simpa [updAssoc] using hmk
  | (c, v) :: rest, hl, hmk, hupd => by
    by_cases hc : c = key
    · subst hc
      intro e he
      simp only [updAssoc, if_pos rfl] at he
      rcases List.mem_cons.mp he with rfl | hrest
      · exact hupd v (hl _ (List.mem_cons_self _ _))
      · exact hl _ (List.mem_cons_of_mem _ hrest)
    · intro e he
      simp only [updAssoc, if_neg hc] at he
      rcases List.mem_cons.mp he with rfl | hrest
      · exact hl _ (List.mem_cons_self _ _)
      · exact forall_updAssoc key upd mk rest
          (fun x hx => hl _ (List.mem_cons_of_mem _ hx)) hmk hupd e hrest

theorem assocGet?_of_mem_nodup {β : Type} :
    ∀ (l : List (String × β)) (e : String × β), (l.map Prod.fst).Nodup →
    e ∈ l → assocGet? l e.1 = some e.2
  | [], e, _, he => by cases he
  | (c, v) :: rest, e, hnd, he => by
    rcases List.mem_cons.mp he with rfl | hrest
    · simp [assocGet?]
    · have hc : c ≠ e.1 := by
        intro hce
        have : e.1 ∈ rest.map Prod.fst := List.mem_map_of_mem Prod.fst hrest
        rw [List.map_cons, List.nodup_cons] at hnd
        exact hnd.1 (hce ▸ this)
      have hnd2 : (rest.map Prod.fst).Nodup := by
        rw [List.map_cons, List.nodup_cons] at hnd
        exact hnd.2
      simp [assocGet?, hc, assocGet?_of_mem_nodup rest e hnd2 hrest]

theorem assocGet?_none_of_not_mem {β : Type} :
    ∀ (l : List (String × β)) (key : String), key ∉ l.map Prod.fst →
    assocGet? l key = none
  | [], _, _ => rfl
  | (c, v) :: rest, key, h => by
    have hc : c ≠ key := fun hce => h (by simp [hce])
    have : key ∉ rest.map Prod.fst := fun hm => h (by simp [hm])
    simp [assocGet?, hc, assocGet?_none_of_not_mem rest key this]

/-! ## Lemmas: the stable descending sort -/

theorem mem_sortDescQ {l : List (ℚ × Meta)} {p : ℚ × Meta} :
    p ∈ sortDescQ l ↔ p ∈ l :=
  (List.perm_insertionSort scoreDescRel l).mem_iff

theorem pairwise_sortDescQ (l : List (ℚ × Meta)) :
    (sortDescQ l).Pairwise (fun a b => b.1 ≤ a.1) :=
  List.sorted_insertionSort scoreDescRel l

theorem length_sortDescQ (l : List (ℚ × Meta)) :
    (sortDescQ l).length = l.length :=
  (List.perm_insertionSort scoreDescRel l).length_eq

theorem mem_of_mem_take {α : Type} {l : List α} {n : Nat} {x : α}
    (h : x ∈ l.take n) : x ∈ l :=
  (List.take_sublist n l).subset h

/-! ## Lemmas: string helpers -/

theorem strLower_eq_empty_iff (s : String) : strLower s = "" ↔ s = "" := by
  constructor
  · intro h
    apply String.ext
    have h3 : s.data.map Char.toLower = [] := congrArg String.data h
    have h4 : s.data = [] := by simpa using h3
    simpa using h4
  · intro h
    subst h
    rfl

theorem dropWhile_idem {α : Type} (p : α → Bool) (l : List α) :
    (l.dropWhile p).dropWhile p = l.dropWhile p := by
  induction l with
  | nil => rfl
  | cons a l ih =>
    by_cases h : p a <;> simp [List.dropWhile_cons, h, ih]

theorem dropWhile_head_false {α : Type} (p : α → Bool) :
    ∀ (l : List α) (x : α), (l.dropWhile p).head? = some x → p x = false
  | [], x, h => by cases h
  | a :: l, x, h => by
    by_cases ha : p a
    · rw [List.dropWhile_cons, if_pos ha] at h
      exact dropWhile_head_false p l x h
    · rw [List.dropWhile_cons, if_neg ha] at h
      cases h
      simpa using ha

theorem dropWhile_eq_self_of_head {α : Type} (p : α → Bool) (l : List α)
    (h : ∀ x, l.head? = some x → p x = false) : l.dropWhile p = l := by
  cases l with
  | nil => rfl
  | cons a t =>
    have := h a rfl
    simp [List.dropWhile_cons, this]

theorem strTrim_idem (s : String) : strTrim (strTrim s) = strTrim s := by
  apply String.ext
  show ((((((s.data.dropWhile Char.isWhitespace).reverse.dropWhile
      Char.isWhitespace).reverse).dropWhile Char.isWhitespace).reverse).dropWhile
      Char.isWhitespace).reverse =
    ((s.data.dropWhile Char.isWhitespace).reverse.dropWhile Char.isWhitespace).reverse
  set ws := Char.isWhitespace with hws
  set d := s.data.dropWhile ws with hd
  set e := d.reverse.dropWhile ws with he
  by_cases hE : e = []
  · simp [hE]
  · have claim1 : e.reverse.dropWhile ws = e.reverse := by
      apply dropWhile_eq_self_of_head
      intro x hx
      have hgl : e.reverse.head? = e.getLast? := List.head?_reverse e
      have hsuf : List.IsSuffix e d.reverse := he ▸ List.dropWhile_suffix ws
      obtain ⟨t, ht⟩ := hsuf
      have hge : e.getLast? = d.reverse.getLast? := by
        rw [← ht, List.getLast?_append_of_ne_nil t hE]
      have hD : d ≠ [] := by
        intro hDnil
        apply hE
        rw [he, hDnil]
        rfl
      obtain ⟨a, ta, hda⟩ := List.exists_cons_of_ne_nil hD
      have hhead : d.head? = some a := by rw [hda]; rfl
      have hrev : d.reverse.getLast? = d.head? := List.getLast?_reverse d
      have hra : e.reverse.head? = some a := by
        rw [hgl, hge, hrev, hhead]
      have hxa : x = a := by
        rw [hx] at hra
        exact Option.some.inj hra
      have hda2 : (s.data.dropWhile ws).head? = some a := by
        rw [← hd]
        exact hhead
      rw [hxa]
      exact dropWhile_head_false ws s.data a hda2
    have claim2 : e.dropWhile ws = e := by
      rw [he, dropWhile_idem]
    rw [claim1, List.reverse_reverse, claim2]

/-! ## Lemmas: reciprocal rank fusion -/

theorem assocScore_rrfAddList (K : ℚ) :
    ∀ (hits : List (ℚ × Meta)) (r : Nat) (fused : List (String × Meta × ℚ))
      (cid : String),
    assocScore (rrfAddList K r hits fused) cid =
      assocScore fused cid + listContrib K r hits cid
  | [], r, fused, cid => by simp [rrfAddList, listContrib]
  | (s, m) :: rest, r, fused, cid => by
    simp only [rrfAddList, listContrib]
    rw [assocScore_rrfAddList K rest (r + 1) _ cid]
    have h1 := assocGet?_updAssoc (chunk_identifier m)
      (fun v => (v.1, v.2 + 1 / (K + (r : ℚ)))) (m, 0 + 1 / (K + (r : ℚ))) fused cid
    by_cases hc : chunk_identifier m = cid
    · rw [if_pos hc]
      cases hfound : assocGet? fused cid with
      | none =>
        have h2 : assocScore (updAssoc (chunk_identifier m)
            (fun v => (v.1, v.2 + 1 / (K + (r : ℚ))))
            (m, 0 + 1 / (K + (r : ℚ))) fused) cid = 0 + 1 / (K + (r : ℚ)) := by
          rw [assocScore, h1, if_pos hc.symm, hc, hfound]
        rw [h2, assocScore, hfound]
        ring
      | some v =>
        have h2 : assocScore (updAssoc (chunk_identifier m)
            (fun v => (v.1, v.2 + 1 / (K + (r : ℚ))))
            (m, 0 + 1 / (K + (r : ℚ))) fused) cid = v.2 + 1 / (K + (r : ℚ)) := by
          rw [assocScore, h1, if_pos hc.symm, hc, hfound]
        rw [h2, assocScore, hfound]
        ring
    · rw [if_neg hc]
      have h2 : assocScore (updAssoc (chunk_identifier m)
          (fun v => (v.1, v.2 + 1 / (K + (r : ℚ))))
          (m, 0 + 1 / (K + (r : ℚ))) fused) cid = assocScore fused cid := by
        rw [assocScore, h1, if_neg (fun he => hc he.symm), assocScore]
      rw [h2]
      ring

theorem listContrib_append (K : ℚ) :
    ∀ (l1 l2 : List (ℚ × Meta)) (r : Nat) (cid : String),
    listContrib K r (l1 ++ l2) cid =
      listContrib K r l1 cid + listContrib K (r + l1.length) l2 cid
  | [], l2, r, cid => by simp [listContrib]
  | (s, m) :: rest, l2, r, cid => by
    simp only [List.cons_append, listContrib, List.length_cons, List.append_eq]
    rw [listContrib_append K rest l2 (r + 1) cid]
    have h : r + 1 + rest.length = r + (rest.length + 1) := by omega
    rw [h]
    ring

theorem listContrib_zero_of_not_mem (K : ℚ) :
    ∀ (l : List (ℚ × Meta)) (r : Nat) (cid : String),
    cid ∉ l.map (fun h => chunk_identifier h.2) → listContrib K r l cid = 0
  | [], _, _, _ => rfl
  | (s, m) :: rest, r, cid, h => by
    have h1 : ¬ chunk_identifier m = cid := by
      intro he
      exact h (by simp [he])
    have h2 : cid ∉ rest.map (fun h => chunk_identifier h.2) := by
      intro hm
      exact h (by simp [hm])
    simp [listContrib, h1, listContrib_zero_of_not_mem K rest (r + 1) cid h2]

theorem listContrib_occursOnce (K : ℚ) (hits : List (ℚ × Meta)) (cid : String)
    (i : Nat) (h : occursOnceAt hits cid i) :
    listContrib K 1 hits cid = 1 / (K + (i : ℚ)) := by
  obtain ⟨pre, c, post, rfl, hcid, hi, hpre, hpost⟩ := h
  obtain ⟨cs, cm⟩ := c
  rw [listContrib_append, listContrib_zero_of_not_mem K pre 1 cid hpre]
  simp only [listContrib, hcid, if_pos, listContrib_zero_of_not_mem K post _ cid hpost,
    hi]
  push_cast
  ring

theorem rrfAddList_key_eq (K : ℚ) :
    ∀ (hits : List (ℚ × Meta)) (r : Nat) (fused : List (String × Meta × ℚ)),
    (∀ e ∈ fused, e.1 = chunk_identifier e.2.1) →
    ∀ e ∈ rrfAddList K r hits fused, e.1 = chunk_identifier e.2.1
  | [], r, fused, hf => by simpa [rrfAddList] using hf
  | (s, m) :: rest, r, fused, hf => by
    simp only [rrfAddList]
    apply rrfAddList_key_eq K rest (r + 1)
    apply forall_updAssoc (chunk_identifier m) _ _ fused hf rfl
    intro v hv
    exact hv

theorem rrfAddList_keys_nodup (K : ℚ) :
    ∀ (hits : List (ℚ × Meta)) (r : Nat) (fused : List (String × Meta × ℚ)),
    ((fused.map Prod.fst).Nodup) →
    ((rrfAddList K r hits fused).map Prod.fst).Nodup
  | [], r, fused, hf => by simpa [rrfAddList] using hf
  | (s, m) :: rest, r, fused, hf => by
    simp only [rrfAddList]
    exact rrfAddList_keys_nodup K rest (r + 1) _
      (nodup_keys_updAssoc _ _ _ fused hf)

theorem rrfAddList_score_nonneg (K : ℚ) (hK : 0 ≤ K) :
    ∀ (hits : List (ℚ × Meta)) (r : Nat) (fused : List (String × Meta × ℚ)),
    (∀ e ∈ fused, 0 ≤ e.2.2) →
    ∀ e ∈ rrfAddList K r hits fused, 0 ≤ e.2.2
  | [], r, fused, hf => by simpa [rrfAddList] using hf
  | (s, m) :: rest, r, fused, hf => by
    have hcontrib : 0 ≤ 1 / (K + (r : ℚ)) := by
      apply one_div_nonneg.mpr
      positivity
    simp only [rrfAddList]
    apply rrfAddList_score_nonneg K hK rest (r + 1)
    apply forall_updAssoc (chunk_identifier m) _ _ fused hf
    · simpa using hcontrib
    · intro v hv
      exact add_nonneg hv hcontrib

theorem rrfTable_key_eq (K : ℚ) (vh lh : List (ℚ × Meta)) :
    ∀ e ∈ rrfTable K vh lh, e.1 = chunk_identifier e.2.1 := by
  apply rrfAddList_key_eq
  apply rrfAddList_key_eq
  intro e he
  cases he

theorem rrfTable_keys_nodup (K : ℚ) (vh lh : List (ℚ × Meta)) :
    ((rrfTable K vh lh).map Prod.fst).Nodup := by
  apply rrfAddList_keys_nodup
  apply rrfAddList_keys_nodup
  simp

theorem rrfTableScore_eq_contrib (K : ℚ) (vh lh : List (ℚ × Meta)) (cid : String) :
    rrfTableScore K vh lh cid =
      listContrib K 1 vh cid + listContrib K 1 lh cid := by
  rw [rrfTableScore, rrfTable, assocScore_rrfAddList, assocScore_rrfAddList]
  show assocScore [] cid + _ + _ = _
  rw [assocScore]
  show (0 : ℚ) + _ + _ = _
  ring

theorem rrf_fuse_mem_score (vh lh : List (ℚ × Meta)) (k : Nat) (K : ℚ)
    (p : ℚ × Meta) (hp : p ∈ rrf_fuse vh lh k K) :
    p.1 = listContrib K 1 vh (chunk_identifier p.2) +
      listContrib K 1 lh (chunk_identifier p.2) := by
  have h1 : p ∈ (rrfTable K vh lh).map (fun e => (e.2.2, e.2.1)) :=
    mem_sortDescQ.mp (mem_of_mem_take hp)
  obtain ⟨e, he, hpe⟩ := List.mem_map.mp h1
  have hkey : e.1 = chunk_identifier e.2.1 := rrfTable_key_eq K vh lh e he
  have hget : assocGet? (rrfTable K vh lh) e.1 = some e.2 :=
    assocGet?_of_mem_nodup _ e (rrfTable_keys_nodup K vh lh) he
  have hscore : rrfTableScore K vh lh e.1 = e.2.2 := by
    rw [rrfTableScore, assocScore, hget]
  have hp1 : p.1 = e.2.2 := by rw [← hpe]
  have hp2 : p.2 = e.2.1 := by rw [← hpe]
  rw [hp1, hp2, ← hkey, ← hscore, rrfTableScore_eq_contrib]

theorem rrf_fuse_sorted (vh lh : List (ℚ × Meta)) (k : Nat) (K : ℚ) :
    (rrf_fuse vh lh k K).Pairwise (fun a b => b.1 ≤ a.1) := by
  apply List.Pairwise.sublist (List.take_sublist _ _)
  exact pairwise_sortDescQ _

theorem rrf_fuse_length_le (vh lh : List (ℚ × Meta)) (k : Nat) (K : ℚ) :
    (rrf_fuse vh lh k K).length ≤ k := by
  rw [rrf_fuse]
  exact List.length_take_le k _

theorem rrf_fuse_nonneg (K : ℚ) (hK : 0 ≤ K) (vh lh : List (ℚ × Meta)) (k : Nat)
    (p : ℚ × Meta) (hp : p ∈ rrf_fuse vh lh k K) : 0 ≤ p.1 := by
  have h1 : p ∈ (rrfTable K vh lh).map (fun e => (e.2.2, e.2.1)) :=
    mem_sortDescQ.mp (mem_of_mem_take hp)
  obtain ⟨e, he, hpe⟩ := List.mem_map.mp h1
  have hnn : 0 ≤ e.2.2 := by
    revert he
    apply rrfAddList_score_nonneg K hK
    apply rrfAddList_score_nonneg K hK
    intro x hx
    cases hx
  have hp1 : p.1 = e.2.2 := by rw [← hpe]
  rw [hp1]
  exact hnn

/-! ## Claim C1 -/

/-- Claim C1: for two ranked hit lists for the same query both containing a
chunk with identity cid, at 1-based positions i and j, rrf_fuse assigns that
chunk the fused score 1/(K+i) + 1/(K+j); in general every returned pair
carries as score the sum, over the two input lists, of 1/(K + rank) at the
ranks where its chunk identity occurs, and the output is ordered by
descending fused score and truncated to k. -/
theorem C1_rrf_fusion (K : ℚ) (k : Nat)
    (vector_hits lexical_hits : List (ℚ × Meta)) (cid : String) (i j : Nat)
    (hv : occursOnceAt vector_hits cid i) (hl : occursOnceAt lexical_hits cid j) :
    rrfTableScore K vector_hits lexical_hits cid =
        1 / (K + (i : ℚ)) + 1 / (K + (j : ℚ))
    ∧ (∀ p, p ∈ rrf_fuse vector_hits lexical_hits k K →
        p.1 = listContrib K 1 vector_hits (chunk_identifier p.2) +
          listContrib K 1 lexical_hits (chunk_identifier p.2))
    ∧ (rrf_fuse vector_hits lexical_hits k K).Pairwise (fun a b => b.1 ≤ a.1)
    ∧ (rrf_fuse vector_hits lexical_hits k K).length ≤ k := by
  refine ⟨?_, ?_, rrf_fuse_sorted _ _ _ _, rrf_fuse_length_le _ _ _ _⟩
  · rw [rrfTableScore_eq_contrib, listContrib_occursOnce K _ _ _ hv,
      listContrib_occursOnce K _ _ _ hl]
  · intro p hp
    exact rrf_fuse_mem_score _ _ _ _ p hp

/-- Witness for C1 at the concrete lists rrfVec0 and rrfLex0: chunk A sits
at rank 1 of the vector list and rank 2 of the lexical list, K = 60. -/
theorem C1_rrf_fusion_witness :
    rrfTableScore 60 rrfVec0 rrfLex0 "A" = 1 / 61 + 1 / 62
    ∧ (rrf_fuse rrfVec0 rrfLex0 2 60).Pairwise (fun a b => b.1 ≤ a.1)
    ∧ (rrf_fuse rrfVec0 rrfLex0 2 60).length ≤ 2 := by
  have hv : occursOnceAt rrfVec0 "A" 1 :=
    ⟨[], (9 / 10, chunkA), [(1 / 2, chunkB)], rfl, rfl, rfl,
      by decide, by decide⟩
  have hl : occursOnceAt rrfLex0 "A" 2 :=
    ⟨[(3, chunkB)], (2, chunkA), [], rfl, rfl, rfl,
      by decide, by decide⟩
  have h := C1_rrf_fusion 60 2 rrfVec0 rrfLex0 "A" 1 2 hv hl
  refine ⟨?_, h.2.2.1, h.2.2.2⟩
  rw [h.1]
  norm_num

/-! ## Lemmas: deduplication grouping -/

theorem groupScores_dedupGroupsAux :
    ∀ (hits : List (ℚ × Meta)) (acc : List (String × Meta × List ℚ)) (cid : String),
    groupScores (dedupGroupsAux acc hits) cid =
      groupScores acc cid ++
        (hits.filter (fun p => chunk_identifier p.2 = cid)).map Prod.fst
  | [], acc, cid => by simp [dedupGroupsAux, groupScores]
  | (s, m) :: rest, acc, cid => by
    simp only [dedupGroupsAux]
    rw [groupScores_dedupGroupsAux rest _ cid]
    have h1 := assocGet?_updAssoc (chunk_identifier m)
      (fun v => (v.1, v.2 ++ [s])) (m, [s]) acc cid
    by_cases hc : chunk_identifier m = cid
    · have h2 : groupScores (updAssoc (chunk_identifier m)
          (fun v => (v.1, v.2 ++ [s])) (m, [s]) acc) cid =
          groupScores acc cid ++ [s] := by
        cases hfound : assocGet? acc cid with
        | none =>
          have hg : assocGet? (updAssoc (chunk_identifier m)
              (fun v => (v.1, v.2 ++ [s])) (m, [s]) acc) cid = some (m, [s]) := by
            rw [h1, if_pos hc.symm, hc, hfound]
          simp [groupScores, hg, hfound]
        | some v =>
          have hg : assocGet? (updAssoc (chunk_identifier m)
              (fun v => (v.1, v.2 ++ [s])) (m, [s]) acc) cid =
              some (v.1, v.2 ++ [s]) := by
            rw [h1, if_pos hc.symm, hc, hfound]
          simp [groupScores, hg, hfound]
      rw [h2]
      simp [List.filter_cons, hc]
    · have h2 : groupScores (updAssoc (chunk_identifier m)
          (fun v => (v.1, v.2 ++ [s])) (m, [s]) acc) cid = groupScores acc cid := by
        have hg : assocGet? (updAssoc (chunk_identifier m)
            (fun v => (v.1, v.2 ++ [s])) (m, [s]) acc) cid = assocGet? acc cid := by
          rw [h1, if_neg (fun he => hc he.symm)]
        simp only [groupScores, hg]
      rw [h2]
      simp [List.filter_cons, hc]

theorem dedupGroupsAux_key_eq :
    ∀ (hits : List (ℚ × Meta)) (acc : List (String × Meta × List ℚ)),
    (∀ e ∈ acc, e.1 = chunk_identifier e.2.1) →
    ∀ e ∈ dedupGroupsAux acc hits, e.1 = chunk_identifier e.2.1
  | [], acc, hf => by simpa [dedupGroupsAux] using hf
  | (s, m) :: rest, acc, hf => by
    simp only [dedupGroupsAux]
    apply dedupGroupsAux_key_eq rest
    apply forall_updAssoc (chunk_identifier m) _ _ acc hf rfl
    intro v hv
    exact hv

theorem dedupGroupsAux_keys_nodup :
    ∀ (hits : List (ℚ × Meta)) (acc : List (String × Meta × List ℚ)),
    (acc.map Prod.fst).Nodup → ((dedupGroupsAux acc hits).map Prod.fst).Nodup
  | [], acc, hf => by simpa [dedupGroupsAux] using hf
  | (s, m) :: rest, acc, hf => by
    simp only [dedupGroupsAux]
    exact dedupGroupsAux_keys_nodup rest _ (nodup_keys_updAssoc _ _ _ acc hf)

theorem mem_keys_dedupGroupsAux :
    ∀ (hits : List (ℚ × Meta)) (acc : List (String × Meta × List ℚ)) (cid : String),
    (cid ∈ (dedupGroupsAux acc hits).map Prod.fst ↔
      cid ∈ acc.map Prod.fst ∨ ∃ p, p ∈ hits ∧ chunk_identifier p.2 = cid)
  | [], acc, cid => by simp [dedupGroupsAux]
  | (s, m) :: rest, acc, cid => by
    simp only [dedupGroupsAux]
    rw [mem_keys_dedupGroupsAux rest _ cid, mem_keys_updAssoc]
    constructor
    · rintro ((h | h) | ⟨p, hp, hcid⟩)
      · exact Or.inl h
      · exact Or.inr ⟨(s, m), List.mem_cons_self _ _, h.symm⟩
      · exact Or.inr ⟨p, List.mem_cons_of_mem _ hp, hcid⟩
    · rintro (h | ⟨p, hp, hcid⟩)
      · exact Or.inl (Or.inl h)
      · rcases List.mem_cons.mp hp with rfl | hp2
        · exact Or.inl (Or.inr hcid.symm)
        · exact Or.inr ⟨p, hp2, hcid⟩

theorem dedupGroups_mem_scores (hits : List (ℚ × Meta))
    (e : String × Meta × List ℚ) (he : e ∈ dedupGroups hits) :
    e.2.2 = (hits.filter (fun p => chunk_identifier p.2 = e.1)).map Prod.fst := by
  have hnd : ((dedupGroups hits).map Prod.fst).Nodup :=
    dedupGroupsAux_keys_nodup hits [] (by simp)
  have hget : assocGet? (dedupGroups hits) e.1 = some e.2 :=
    assocGet?_of_mem_nodup _ e hnd he
  have h1 : groupScores (dedupGroups hits) e.1 = e.2.2 := by
    simp only [groupScores, hget]
  have h2 := groupScores_dedupGroupsAux hits [] e.1
  rw [← h1]
  calc groupScores (dedupGroups hits) e.1
      = groupScores [] e.1 ++
        (hits.filter (fun p => chunk_identifier p.2 = e.1)).map Prod.fst := h2
    _ = (hits.filter (fun p => chunk_identifier p.2 = e.1)).map Prod.fst := by
        simp [groupScores, assocGet?]

theorem dedupCandidates_mem_score (hits : List (ℚ × Meta)) (q : ℚ × Meta)
    (hq : q ∈ dedupCandidates hits) :
    q.1 = dedupSpecScore hits (chunk_identifier q.2) := by
  obtain ⟨g, hg, hqg⟩ := List.mem_map.mp hq
  have hkey : g.1 = chunk_identifier g.2.1 :=
    dedupGroupsAux_key_eq hits [] (by simp) g hg
  have hscores := dedupGroups_mem_scores hits g hg
  have hq1 : q.1 = groupFinalScore g := by rw [← hqg]
  have hq2 : q.2 = g.2.1 := by rw [← hqg]
  rw [hq1, hq2, ← hkey, groupFinalScore, dedupSpecScore, hscores]
  simp [occurrence_bonus]

theorem deduplicate_mem (hits : List (ℚ × Meta)) (topK : Nat) (q : ℚ × Meta)
    (hq : q ∈ deduplicate_results hits topK) : q ∈ dedupCandidates hits := by
  rw [deduplicate_results] at hq
  by_cases h : hits = []
  · rw [if_pos h] at hq
    cases hq
  · rw [if_neg h] at hq
    exact mem_sortDescQ.mp (mem_of_mem_take hq)

/-! ## Claim C3 -/

/-- Claim C3: for every non-empty input, deduplicate_results groups hits by
chunk identity, assigns each group the score max of raw scores plus
min(0.1, 0.02 times occurrence count), and returns the groups sorted
descending by that score, truncated to topK: every returned pair carries the
group score of its identity, the output is sorted descending and at most
topK long, the candidate groups carry pairwise distinct identities, the
identities of the groups are exactly those occurring in the input, and when
topK is large enough every group is returned. -/
theorem C3_deduplicate (hits : List (ℚ × Meta)) (topK : Nat) (hne : hits ≠ []) :
    (∀ p, p ∈ deduplicate_results hits topK →
        p.1 = dedupSpecScore hits (chunk_identifier p.2))
    ∧ (deduplicate_results hits topK).Pairwise (fun a b => b.1 ≤ a.1)
    ∧ (deduplicate_results hits topK).length ≤ topK
    ∧ ((dedupCandidates hits).map (fun p => chunk_identifier p.2)).Nodup
    ∧ (∀ cid, (∃ p, p ∈ hits ∧ chunk_identifier p.2 = cid) ↔
        (∃ q, q ∈ dedupCandidates hits ∧ chunk_identifier q.2 = cid))
    ∧ ((dedupCandidates hits).length ≤ topK →
        ∀ q, q ∈ dedupCandidates hits → q ∈ deduplicate_results hits topK) := by
  have hkeymap : (dedupCandidates hits).map (fun p => chunk_identifier p.2) =
      (dedupGroups hits).map Prod.fst := by
    rw [dedupCandidates, List.map_map]
    apply List.map_congr_left
    intro g hg
    exact (dedupGroupsAux_key_eq hits [] (by simp) g hg).symm
  refine ⟨?_, ?_, ?_, ?_, ?_, ?_⟩
  · intro p hp
    exact dedupCandidates_mem_score hits p (deduplicate_mem hits topK p hp)
  · rw [deduplicate_results, if_neg hne]
    exact (pairwise_sortDescQ _).sublist (List.take_sublist _ _)
  · rw [deduplicate_results, if_neg hne]
    exact List.length_take_le _ _
  · rw [hkeymap]
    exact dedupGroupsAux_keys_nodup hits [] (by simp)
  · intro cid
    have h1 := mem_keys_dedupGroupsAux hits [] cid
    simp only [List.map_nil, List.not_mem_nil, false_or] at h1
    have h2 : cid ∈ (dedupCandidates hits).map (fun p => chunk_identifier p.2) ↔
        (∃ q, q ∈ dedupCandidates hits ∧ chunk_identifier q.2 = cid) :=
      List.mem_map
    rw [← h1, ← h2, hkeymap]
    exact Iff.rfl
  · intro hlen q hqc
    rw [deduplicate_results, if_neg hne]
    have hl : (sortDescQ (dedupCandidates hits)).length ≤ topK := by
      rw [length_sortDescQ]
      exact hlen
    rw [List.take_of_length_le hl]
    exact mem_sortDescQ.mpr hqc

/-- Witness for C3 at the section 8 example input with topK 2. -/
theorem C3_deduplicate_witness :
    (deduplicate_results dedupExampleHits 2).Pairwise (fun a b => b.1 ≤ a.1)
    ∧ (deduplicate_results dedupExampleHits 2).length ≤ 2
    ∧ ((dedupCandidates dedupExampleHits).map
        (fun p => chunk_identifier p.2)).Nodup := by
  have h := C3_deduplicate dedupExampleHits 2 (by simp [dedupExampleHits])
  exact ⟨h.2.1, h.2.2.1, h.2.2.2.1⟩

/-! ## Claim C4 -/

/-- Claim C4 counterexample: on the section 8 input the second returned pair
has score 0.82 (the occurrence bonus 0.02 applies to the single occurrence
of chunk B as well), not 0.8, so the output claimed by the spec is not the
output of the code. -/
theorem C4_counterexample :
    deduplicate_results dedupExampleHits 2 ≠ [(94 / 100, chunkA), (8 / 10, chunkB)] := by
  have h2 : deduplicate_results dedupExampleHits 2 =
      [(47 / 50, chunkA), (41 / 50, chunkB)] := by
    norm_num [deduplicate_results, dedupExampleHits, dedupCandidates, dedupGroups,
      dedupGroupsAux, updAssoc, chunk_identifier, chunkA, chunkB, chunk_fallback_key,
      groupFinalScore, listMax, occurrence_bonus, min_def, sortDescQ,
      List.insertionSort, List.orderedInsert, scoreDescRel]
    intro h
    exact absurd h (by simp)
  rw [h2]
  intro h
  obtain ⟨hh, ht⟩ := List.cons.inj h
  obtain ⟨hh2, _⟩ := List.cons.inj ht
  have h3 : (41 : ℚ) / 50 = 8 / 10 := congrArg Prod.fst hh2
  norm_num at h3

/-- Claim C4 amended: on the section 8 input with topK 2 the deduplicator
returns chunk A first with score 0.94 = 0.9 + 0.02 times 2 and chunk B second
with score 0.82 = 0.8 + 0.02 times 1, ordered descending. -/
theorem C4_dedup_example :
    deduplicate_results dedupExampleHits 2 =
      [(47 / 50, chunkA), (41 / 50, chunkB)] := by
  norm_num [deduplicate_results, dedupExampleHits, dedupCandidates, dedupGroups,
    dedupGroupsAux, updAssoc, chunk_identifier, chunkA, chunkB, chunk_fallback_key,
    groupFinalScore, listMax, occurrence_bonus, min_def, sortDescQ,
    List.insertionSort, List.orderedInsert, scoreDescRel]
  intro h
  exact absurd h (by simp)

/-! ## Claim C8 -/

theorem listMax_nonneg : ∀ (l : List ℚ), l ≠ [] → (∀ x ∈ l, 0 ≤ x) → 0 ≤ listMax l
  | [], hne, _ => absurd rfl hne
  | [x], _, h => by simpa [listMax] using h x (by simp)
  | x :: y :: rest, _, h => by
    have hrec := listMax_nonneg (y :: rest) (by simp)
      (fun z hz => h z (List.mem_cons_of_mem _ hz))
    simp only [listMax]
    exact le_max_of_le_right hrec

theorem occurrence_bonus_nonneg (n : Nat) : 0 ≤ occurrence_bonus n := by
  rw [occurrence_bonus]
  apply le_min
  · norm_num
  · positivity

theorem dedup_nonneg_of_nonneg (hits : List (ℚ × Meta)) (topK : Nat)
    (q : ℚ × Meta) (hpos : ∀ p, p ∈ hits → 0 ≤ p.1)
    (hq : q ∈ deduplicate_results hits topK) : 0 ≤ q.1 := by
  have hqc := deduplicate_mem hits topK q hq
  obtain ⟨g, hg, hqg⟩ := List.mem_map.mp hqc
  have hscores := dedupGroups_mem_scores hits g hg
  have hkeys : g.1 ∈ (dedupGroups hits).map Prod.fst :=
    List.mem_map_of_mem Prod.fst hg
  have hex := (mem_keys_dedupGroupsAux hits [] g.1).mp hkeys
  simp only [List.map_nil, List.not_mem_nil, false_or] at hex
  obtain ⟨p, hp, hcid⟩ := hex
  have hpf : p ∈ hits.filter (fun p => chunk_identifier p.2 = g.1) :=
    List.mem_filter.mpr ⟨hp, by simp [hcid]⟩
  have hne : g.2.2 ≠ [] := by
    rw [hscores]
    exact List.ne_nil_of_mem (List.mem_map_of_mem Prod.fst hpf)
  have hmax : 0 ≤ listMax g.2.2 := by
    apply listMax_nonneg g.2.2 hne
    intro x hx
    rw [hscores] at hx
    obtain ⟨r, hrf, hrx⟩ := List.mem_map.mp hx
    have hr : r ∈ hits := (List.mem_filter.mp hrf).1
    rw [← hrx]
    exact hpos r hr
  have hq1 : q.1 = groupFinalScore g := by rw [← hqg]
  rw [hq1, groupFinalScore]
  exact add_nonneg hmax (occurrence_bonus_nonneg _)

/-- Claim C8 counterexample: the deduplicator output score on a single hit
with raw score -1 is -0.98, which is negative, so deduplicator scores are
not non-negative for inputs with negative raw scores. -/
theorem C8_counterexample :
    deduplicate_results negHits 5 = [(-(49 / 50), chunkA)]
    ∧ (-(49 / 50) : ℚ) < 0 := by
  constructor
  · norm_num [deduplicate_results, negHits, dedupCandidates, dedupGroups,
      dedupGroupsAux, updAssoc, chunk_identifier, chunkA, chunk_fallback_key,
      groupFinalScore, listMax, occurrence_bonus, min_def, sortDescQ,
      List.insertionSort, List.orderedInsert, scoreDescRel]
  · norm_num

/-- Claim C8 amended: every fused score produced by rrf_fuse is non-negative
for every input hit lists (raw scores do not enter the fused score) whenever
the RRF constant is non-negative; every deduplicator score is non-negative
provided the raw input scores are non-negative. -/
theorem C8_nonneg :
    (∀ (K : ℚ) (vh lh : List (ℚ × Meta)) (k : Nat) (p : ℚ × Meta),
        0 ≤ K → p ∈ rrf_fuse vh lh k K → 0 ≤ p.1)
    ∧ (∀ (hits : List (ℚ × Meta)) (topK : Nat) (q : ℚ × Meta),
        (∀ p, p ∈ hits → 0 ≤ p.1) → q ∈ deduplicate_results hits topK → 0 ≤ q.1) :=
  ⟨fun K vh lh k p hK hp => rrf_fuse_nonneg K hK vh lh k p hp,
   fun hits topK q hpos hq => dedup_nonneg_of_nonneg hits topK q hpos hq⟩

/-- Witness for C8 at concrete inputs: a fused pair of rrf_fuse and a
deduplicated pair, both with non-negative scores. -/
theorem C8_nonneg_witness :
    ((1 / 61 : ℚ), chunkA) ∈ rrf_fuse [(1, chunkA)] [] 1 60
    ∧ (0 : ℚ) ≤ ((1 / 61 : ℚ), chunkA).1
    ∧ ((51 / 50 : ℚ), chunkA) ∈ deduplicate_results [(1, chunkA)] 5
    ∧ (0 : ℚ) ≤ ((51 / 50 : ℚ), chunkA).1 := by
  have hr : rrf_fuse [(1, chunkA)] [] 1 60 = [(1 / 61, chunkA)] := by
    norm_num [rrf_fuse, rrfTable, rrfAddList, updAssoc, chunk_identifier, chunkA,
      chunk_fallback_key, sortDescQ, List.insertionSort, List.orderedInsert,
      scoreDescRel]
  have hd : deduplicate_results [(1, chunkA)] 5 = [(51 / 50, chunkA)] := by
    norm_num [deduplicate_results, dedupCandidates, dedupGroups, dedupGroupsAux,
      updAssoc, chunk_identifier, chunkA, chunk_fallback_key, groupFinalScore,
      listMax, occurrence_bonus, min_def, sortDescQ, List.insertionSort,
      List.orderedInsert, scoreDescRel]
  have hm1 : ((1 / 61 : ℚ), chunkA) ∈ rrf_fuse [(1, chunkA)] [] 1 60 := by
    rw [hr]
    simp
  have hm2 : ((51 / 50 : ℚ), chunkA) ∈ deduplicate_results [(1, chunkA)] 5 := by
    rw [hd]
    simp
  refine ⟨hm1, C8_nonneg.1 60 [(1, chunkA)] [] 1 _ (by norm_num) hm1, hm2,
    C8_nonneg.2 [(1, chunkA)] 5 _ ?_ hm2⟩
  intro p hp
  simp only [List.mem_singleton] at hp
  rw [hp]
  norm_num

/-! ## Lemmas: circuit breaker -/

theorem cb_gate_closed (s : CBState) (now : ℚ)
    (h : s.state = CircuitState.CLOSED) : cb_gate s now = some s := by
  simp [cb_gate, h]

theorem cb_gate_half_open (s : CBState) (now : ℚ)
    (h : s.state = CircuitState.HALF_OPEN) : cb_gate s now = some s := by
  simp [cb_gate, h]

theorem cb_fail_run :
    ∀ (ts : List ℚ) (s : CBState), s.state = CircuitState.CLOSED →
    s.failures + ts.length = s.failure_threshold → ts ≠ [] →
    (cb_run s (ts.map (fun t => (t, false)))).state = CircuitState.OPEN
    ∧ (cb_run s (ts.map (fun t => (t, false)))).failures = s.failure_threshold
    ∧ (cb_run s (ts.map (fun t => (t, false)))).successes = 0
    ∧ (cb_run s (ts.map (fun t => (t, false)))).last_failure_time = ts.getLast?
    ∧ (cb_run s (ts.map (fun t => (t, false)))).timeout = s.timeout
    ∧ (cb_run s (ts.map (fun t => (t, false)))).failure_threshold = s.failure_threshold
  | [], s, _, _, hne => absurd rfl hne
  | t :: rest, s, hst, hcount, _ => by
    have hgate := cb_gate_closed s t hst
    have hstep : cb_run s ((t :: rest).map (fun t => (t, false))) =
        cb_run (cb_on_failure s t) (rest.map (fun t => (t, false))) := by
      simp [cb_run, cb_call, hgate]
    cases rest with
    | nil =>
      have hthr : s.failure_threshold ≤ s.failures + 1 := by
        simp at hcount
        omega
      have hofail : cb_on_failure s t =
          { s with failures := s.failures + 1, last_failure_time := some t,
                   state := CircuitState.OPEN, successes := 0 } := by
        simp [cb_on_failure, hthr]
      rw [hstep, hofail]
      have hfail : s.failures + 1 = s.failure_threshold := by
        simp at hcount
        omega
      simp [cb_run, hfail]
    | cons t2 rest2 =>
      have hlt : ¬ s.failure_threshold ≤ s.failures + 1 := by
        simp at hcount
        omega
      have hofail : cb_on_failure s t =
          { s with failures := s.failures + 1, last_failure_time := some t } := by
        simp [cb_on_failure, hlt]
      have IH := cb_fail_run (t2 :: rest2) (cb_on_failure s t)
        (by rw [hofail]; exact hst)
        (by rw [hofail]; simp at hcount ⊢; omega)
        (by simp)
      rw [hstep]
      refine ⟨IH.1, ?_, IH.2.2.1, ?_, ?_, ?_⟩
      · rw [IH.2.1, hofail]
      · rw [IH.2.2.2.1, List.getLast?_cons_cons]
      · rw [IH.2.2.2.2.1, hofail]
      · rw [IH.2.2.2.2.2, hofail]

theorem cb_succ_run :
    ∀ (ts : List ℚ) (s : CBState), s.state = CircuitState.HALF_OPEN →
    s.successes + ts.length = s.success_threshold → ts ≠ [] →
    (cb_run s (ts.map (fun t => (t, true)))).state = CircuitState.CLOSED
    ∧ (cb_run s (ts.map (fun t => (t, true)))).failures = 0
    ∧ (cb_run s (ts.map (fun t => (t, true)))).successes = 0
  | [], s, _, _, hne => absurd rfl hne
  | t :: rest, s, hst, hcount, _ => by
    have hgate := cb_gate_half_open s t hst
    have hstep : cb_run s ((t :: rest).map (fun t => (t, true))) =
        cb_run (cb_on_success s) (rest.map (fun t => (t, true))) := by
      simp [cb_run, cb_call, hgate]
    cases rest with
    | nil =>
      have hthr : s.success_threshold ≤ s.successes + 1 := by
        simp at hcount
        omega
      have hsucc : cb_on_success s =
          { s with state := CircuitState.CLOSED, failures := 0, successes := 0 } := by
        simp [cb_on_success, hst, hthr]
      rw [hstep, hsucc]
      simp [cb_run]
    | cons t2 rest2 =>
      have hlt : ¬ s.success_threshold ≤ s.successes + 1 := by
        simp at hcount
        omega
      have hsucc : cb_on_success s = { s with successes := s.successes + 1 } := by
        simp [cb_on_success, hst, hlt]
      have IH := cb_succ_run (t2 :: rest2) (cb_on_success s)
        (by rw [hsucc]; exact hst)
        (by rw [hsucc]; simp at hcount ⊢; omega)
        (by simp)
      rw [hstep]
      exact IH

theorem cb_open_rejects (s : CBState) (now : ℚ) (ok : Bool)
    (hst : s.state = CircuitState.OPEN)
    (htime : ∀ t, s.last_failure_time = some t → now - t ≤ s.timeout) :
    cb_call s now ok = (CallOutcome.rejected, false, s) := by
  have hgate : cb_gate s now = none := by
    cases hlf : s.last_failure_time with
    | none => simp [cb_gate, hst, hlf]
    | some t =>
      have hle := htime t hlf
      have hnot : ¬ (now - t > s.timeout) := not_lt.mpr hle
      simp [cb_gate, hst, hlf, hnot]
  simp [cb_call, hgate]

theorem cb_open_probes (s : CBState) (now : ℚ) (ok : Bool) (t : ℚ)
    (hst : s.state = CircuitState.OPEN) (hlf : s.last_failure_time = some t)
    (htime : s.timeout < now - t) :
    cb_gate s now = some { s with state := CircuitState.HALF_OPEN }
    ∧ (cb_call s now ok).2.1 = true := by
  have hg : cb_gate s now = some { s with state := CircuitState.HALF_OPEN } := by
    simp [cb_gate, hst, hlf, htime]
  refine ⟨hg, ?_⟩
  cases ok <;> simp [cb_call, hg]

/-! ## Claim C2 -/

/-- Claim C2: from CLOSED with zero failures, failure_threshold consecutive
failing calls leave the breaker OPEN, and an immediately subsequent call
(with at most timeout seconds since the recorded last failure) is rejected
without invoking the wrapped function; in general no call is served while
OPEN and the timeout has not elapsed; once strictly more than timeout
seconds have passed since the last failure the next call moves the breaker
to HALF_OPEN at the gate and the wrapped function is invoked; and
success_threshold consecutive successful calls from a fresh HALF_OPEN state
move the breaker to CLOSED with the failure count reset to zero. -/
theorem C2_circuit_breaker :
    (∀ (s : CBState) (ts : List ℚ), s.state = CircuitState.CLOSED →
      s.failures = 0 → ts.length = s.failure_threshold → ts ≠ [] →
      (cb_run s (ts.map (fun t => (t, false)))).state = CircuitState.OPEN
      ∧ (∀ (now : ℚ) (ok : Bool) (tl : ℚ),
          (cb_run s (ts.map (fun t => (t, false)))).last_failure_time = some tl →
          now - tl ≤ (cb_run s (ts.map (fun t => (t, false)))).timeout →
          cb_call (cb_run s (ts.map (fun t => (t, false)))) now ok =
            (CallOutcome.rejected, false, cb_run s (ts.map (fun t => (t, false))))))
    ∧ (∀ (s : CBState) (now : ℚ) (ok : Bool), s.state = CircuitState.OPEN →
        (∀ t, s.last_failure_time = some t → now - t ≤ s.timeout) →
        cb_call s now ok = (CallOutcome.rejected, false, s))
    ∧ (∀ (s : CBState) (now : ℚ) (ok : Bool) (t : ℚ),
        s.state = CircuitState.OPEN → s.last_failure_time = some t →
        s.timeout < now - t →
        cb_gate s now = some { s with state := CircuitState.HALF_OPEN }
        ∧ (cb_call s now ok).2.1 = true)
    ∧ (∀ (s : CBState) (ts : List ℚ), s.state = CircuitState.HALF_OPEN →
        s.successes = 0 → ts.length = s.success_threshold → ts ≠ [] →
        (cb_run s (ts.map (fun t => (t, true)))).state = CircuitState.CLOSED
        ∧ (cb_run s (ts.map (fun t => (t, true)))).failures = 0) := by
  refine ⟨?_, cb_open_rejects, cb_open_probes, ?_⟩
  · intro s ts hst hzero hlen hne
    have h := cb_fail_run ts s hst (by omega) hne
    refine ⟨h.1, ?_⟩
    intro now ok tl hlf htime
    apply cb_open_rejects _ now ok h.1
    intro t2 ht2
    rw [hlf] at ht2
    cases ht2
    exact htime
  · intro s ts hst hzero hlen hne
    have h := cb_succ_run ts s hst (by omega) hne
    exact ⟨h.1, h.2.1⟩

/-- Witness for C2 with thresholds 2 and timeout 60: two failures at times 0
and 1 trip the breaker; a call at time 30 is rejected unchanged; a call at
time 100 on the tripped breaker passes the gate in HALF_OPEN and invokes the
function; two successes close the probing breaker and reset failures. -/
theorem C2_circuit_breaker_witness :
    (cb_run cbStart ([0, 1].map (fun t => (t, false)))).state = CircuitState.OPEN
    ∧ cb_call (cb_run cbStart ([0, 1].map (fun t => (t, false)))) 30 true =
        (CallOutcome.rejected, false, cb_run cbStart ([0, 1].map (fun t => (t, false))))
    ∧ cb_call cbOpen 30 true = (CallOutcome.rejected, false, cbOpen)
    ∧ cb_gate cbOpen 100 = some { cbOpen with state := CircuitState.HALF_OPEN }
    ∧ (cb_call cbOpen 100 true).2.1 = true
    ∧ (cb_run cbHalf ([200, 201].map (fun t => (t, true)))).state = CircuitState.CLOSED
    ∧ (cb_run cbHalf ([200, 201].map (fun t => (t, true)))).failures = 0 := by
  have h := C2_circuit_breaker
  have h1 := h.1 cbStart [0, 1] rfl rfl rfl (by simp)
  have hrunlf : (cb_run cbStart ([0, 1].map (fun t => (t, false)))).last_failure_time =
      some 1 := by
    simp [cbStart, cb_run, cb_call, cb_gate, cb_on_failure]
  have hruntm : (cb_run cbStart ([0, 1].map (fun t => (t, false)))).timeout = 60 := by
    simp [cbStart, cb_run, cb_call, cb_gate, cb_on_failure]
  have h2 := h.2.1 cbOpen 30 true rfl (by
    intro t ht
    have ht2 : t = 0 := by
      have := ht.symm
      simpa [cbOpen] using this
    rw [ht2]
    norm_num [cbOpen])
  have h3 := h.2.2.1 cbOpen 100 true 0 rfl rfl (by norm_num [cbOpen])
  have h4 := h.2.2.2 cbHalf [200, 201] rfl rfl rfl (by simp)
  refine ⟨h1.1, ?_, h2, h3.1, h3.2, h4.1, h4.2⟩
  apply h1.2 30 true 1 hrunlf
  rw [hruntm]
  norm_num

/-! ## Lemmas: TTL cache -/

theorem assocGet?_assocErase_of_nodup {β : Type} :
    ∀ (l : List (String × β)) (key : String), (l.map Prod.fst).Nodup →
    assocGet? (assocErase l key) key = none
  | [], key, _ => rfl
  | (c, v) :: rest, key, hnd => by
    by_cases hc : c = key
    · subst hc
      simp only [assocErase, if_pos rfl]
      apply assocGet?_none_of_not_mem
      rw [List.map_cons, List.nodup_cons] at hnd
      exact hnd.1
    · simp only [assocErase, if_neg hc, assocGet?]
      apply assocGet?_assocErase_of_nodup rest key
      rw [List.map_cons, List.nodup_cons] at hnd
      exact hnd.2

/-! ## Claim C5 -/

/-- Claim C5: when a key holds an entry inserted more than ttl seconds ago,
get returns absent, counts a miss (hits unchanged), and removes the expired
entry; and whenever get returns a value, the entry is at most ttl old and
the returned value is the stored one — the cache never returns an entry
older than its TTL. -/
theorem C5_ttl_cache {V : Type} (c : TTLCache V) (key : String) (now ts : ℚ)
    (v : V) (hnd : (c.cache.map Prod.fst).Nodup)
    (hfound : assocGet? c.cache key = some (ts, v)) :
    (c.ttl < now - ts →
      (c.get key now).1 = none
      ∧ (c.get key now).2.misses = c.misses + 1
      ∧ (c.get key now).2.hits = c.hits
      ∧ assocGet? ((c.get key now).2.cache) key = none)
    ∧ (∀ v2, (c.get key now).1 = some v2 → now - ts ≤ c.ttl ∧ v2 = v) := by
  constructor
  · intro hold
    have hget : c.get key now =
        (none, { c with cache := assocErase c.cache key,
                        misses := c.misses + 1 }) := by
      simp only [TTLCache.get, hfound]
      rw [if_pos hold]
    rw [hget]
    exact ⟨rfl, rfl, rfl, assocGet?_assocErase_of_nodup c.cache key hnd⟩
  · intro v2 hv2
    by_cases htl : now - ts > c.ttl
    · have hget : (c.get key now).1 = none := by
        simp only [TTLCache.get, hfound]
        rw [if_pos htl]
      rw [hget] at hv2
      cases hv2
    · have hget : (c.get key now).1 = some v := by
        simp only [TTLCache.get, hfound]
        rw [if_neg htl]
      rw [hget] at hv2
      exact ⟨not_lt.mp htl, (Option.some.inj hv2).symm⟩

/-- Witness for C5 on a cache with ttl 10 holding one entry inserted at
time 0: a get at time 20 misses, removes the entry and leaves hits alone; a
get at time 5 returns the entry, which is then at most ttl old. -/
theorem C5_ttl_cache_witness :
    (cache0.get "k" 20).1 = none
    ∧ (cache0.get "k" 20).2.misses = cache0.misses + 1
    ∧ (cache0.get "k" 20).2.hits = cache0.hits
    ∧ assocGet? ((cache0.get "k" 20).2.cache) "k" = none
    ∧ (5 : ℚ) - 0 ≤ cache0.ttl := by
  have h20 := C5_ttl_cache cache0 "k" 20 0 42 (by simp [cache0]) rfl
  have h5 := C5_ttl_cache cache0 "k" 5 0 42 (by simp [cache0]) rfl
  have hold : cache0.ttl < 20 - 0 := by norm_num [cache0]
  have hsome : (cache0.get "k" 5).1 = some 42 := by
    norm_num [TTLCache.get, cache0, assocGet?]
  exact ⟨(h20.1 hold).1, (h20.1 hold).2.1, (h20.1 hold).2.2.1, (h20.1 hold).2.2.2,
    (h5.2 42 hsome).1⟩

/-! ## Claim C6 -/

/-- Claim C6: with external augmentation enabled, the topicality heuristic
accepts the query What is photosynthesis? (it starts with a trigger phrase)
and rejects the query calculate 2 + 2 (no trigger phrase and fewer than two
capitalized multi-letter words). -/
theorem C6_topicality_heuristic :
    should_query_wikimedia true "What is photosynthesis?" = true
    ∧ should_query_wikimedia true "calculate 2 + 2" = false := by
  constructor
  · decide
  · decide

/-! ## Lemmas: query expansion -/

theorem dedupQueries_spec :
    ∀ (l seen : List String),
    (∀ x ∈ dedupQueries l seen, strLower (strTrim x) ∉ seen)
    ∧ (dedupQueries l seen).Pairwise
        (fun a b => strLower (strTrim a) ≠ strLower (strTrim b))
  | [], seen => ⟨by simp [dedupQueries], by simp [dedupQueries]⟩
  | q :: rest, seen => by
    simp only [dedupQueries]
    by_cases hins : strLower (strTrim q) ≠ "" ∧ strLower (strTrim q) ∉ seen
    · rw [if_pos hins]
      have IH := dedupQueries_spec rest (strLower (strTrim q) :: seen)
      constructor
      · intro x hx
        rcases List.mem_cons.mp hx with rfl | hx2
        · rw [strTrim_idem]
          exact hins.2
        · intro hmem
          exact IH.1 x hx2 (List.mem_cons_of_mem _ hmem)
      · refine List.Pairwise.cons ?_ IH.2
        intro b hb
        rw [strTrim_idem]
        intro heq
        exact IH.1 b hb (heq ▸ List.mem_cons_self _ _)
    · rw [if_neg hins]
      exact dedupQueries_spec rest seen

theorem dedupQueries_sublist :
    ∀ (l seen : List String), List.Sublist (dedupQueries l seen) (l.map strTrim)
  | [], _ => by simp [dedupQueries]
  | q :: rest, seen => by
    simp only [dedupQueries, List.map_cons]
    by_cases hins : strLower (strTrim q) ≠ "" ∧ strLower (strTrim q) ∉ seen
    · rw [if_pos hins]
      exact List.Sublist.cons₂ _ (dedupQueries_sublist rest _)
    · rw [if_neg hins]
      exact List.Sublist.cons _ (dedupQueries_sublist rest seen)

theorem dedupQueries_cons_pos (q : String) (rest : List String)
    (h : strLower (strTrim q) ≠ "") :
    dedupQueries (q :: rest) [] =
      strTrim q :: dedupQueries rest [strLower (strTrim q)] := by
  simp only [dedupQueries]
  rw [if_pos ⟨h, by simp⟩]

/-! ## Claim C7 -/

/-- Claim C7 counterexample: for the non-blank original query consisting of
hello surrounded by spaces, element 0 of the expansion is the trimmed form
hello, not the original query itself. -/
theorem C7_counterexample :
    (generate_multi_queries " hello " 3 true (some [])).head? ≠
      some " hello " := by
  decide

/-- Claim C7 amended: for every non-blank original query and every n of at
least 1, the expansion returns a list whose element 0 is the
whitespace-trimmed original query, whose entries are pairwise distinct
under lowercase-trimmed equality, which is an order-preserving sublist of
the trimmed raw query list, and whose length is at most n. -/
theorem C7_query_expansion (original_query : String) (n : Nat) (use_llm : Bool)
    (llm : Option (List String)) (hq : strTrim original_query ≠ "")
    (hn : 1 ≤ n) :
    (generate_multi_queries original_query n use_llm llm).head? =
        some (strTrim original_query)
    ∧ (generate_multi_queries original_query n use_llm llm).length ≤ n
    ∧ (generate_multi_queries original_query n use_llm llm).Pairwise
        (fun a b => strLower (strTrim a) ≠ strLower (strTrim b))
    ∧ List.Sublist (generate_multi_queries original_query n use_llm llm)
        ((expansionInputs original_query n use_llm llm).map strTrim) := by
  have hkey : strLower (strTrim original_query) ≠ "" := by
    intro h
    exact hq ((strLower_eq_empty_iff _).mp h)
  have hunfold : generate_multi_queries original_query n use_llm llm =
      (dedupQueries (expansionInputs original_query n use_llm llm) []).take n := by
    rw [generate_multi_queries, if_neg hq]
  refine ⟨?_, ?_, ?_, ?_⟩
  · have hd : dedupQueries (expansionInputs original_query n use_llm llm) [] =
        strTrim original_query ::
          dedupQueries (expansionInputs original_query n use_llm llm).tail
            [strLower (strTrim original_query)] :=
      dedupQueries_cons_pos original_query _ hkey
    obtain ⟨m, hm⟩ := Nat.exists_eq_add_of_le hn
    rw [hunfold, hd, hm, Nat.add_comm 1 m, List.take_succ_cons]
    rfl
  · rw [hunfold]
    exact List.length_take_le n _
  · rw [hunfold]
    exact ((dedupQueries_spec _ []).2).sublist (List.take_sublist _ _)
  · rw [hunfold]
    exact (List.take_sublist _ _).trans (dedupQueries_sublist _ [])

/-- Witness for C7 at a concrete query with two LLM variants, one of them a
duplicate of the original under lowercase-trimmed equality. -/
theorem C7_query_expansion_witness :
    (generate_multi_queries "What is gravity?" 3 true
        (some ["  Explain gravity ", "what is gravity?"])).head? =
      some (strTrim "What is gravity?")
    ∧ (generate_multi_queries "What is gravity?" 3 true
        (some ["  Explain gravity ", "what is gravity?"])).length ≤ 3 := by
  have h := C7_query_expansion "What is gravity?" 3 true
    (some ["  Explain gravity ", "what is gravity?"]) (by decide) (by decide)
  exact ⟨h.1, h.2.1⟩

/-! ## Claim C9 -/

/-- Claim C9 counterexample: a User-Agent of twenty at-sign characters
contains no project identifier and no contact reference, yet construction
accepts it, so construction is not rejected for every header missing those
parts; the code checks only presence, length and an at sign. -/
theorem C9_counterexample :
    wikimedia_user_agent_ok (some (String.mk (List.replicate 20 '@'))) = true := by
  decide

/-- Claim C9 amended: construction is accepted exactly when a User-Agent is
supplied, is at least 20 characters long and contains an at character (the
emptiness test of the source is subsumed by the length test); no actual
project identifier or contact reference is verified. -/
theorem C9_user_agent (ua : Option String) :
    wikimedia_user_agent_ok ua = true ↔
      ∃ s, ua = some s ∧ 20 ≤ s.length ∧ '@' ∈ s.data := by
  cases ua with
  | none => simp [wikimedia_user_agent_ok]
  | some s =>
    simp only [wikimedia_user_agent_ok, Bool.and_eq_true, decide_eq_true_eq,
      Option.some.injEq, bne_iff_ne, ne_eq]
    constructor
    · rintro ⟨⟨hne, hlen⟩, hat⟩
      refine ⟨s, rfl, hlen, ?_⟩
      simpa using hat
    · rintro ⟨s2, heq, hlen, hat⟩
      cases heq
      have hne : s ≠ "" := by
        intro h
        have hzero : ("" : String).length = 0 := rfl
        rw [h, hzero] at hlen
        exact absurd hlen (by decide)
      refine ⟨⟨?_, hlen⟩, ?_⟩
      · simpa using hne
      · simpa using hat

/-! ## Claim C10 -/

/-- Claim C10: for every query that is empty or whitespace only, retrieve
returns the empty hit list with an empty collaborator trace: the embedding
function and vector index, the BM25 scorer and the LLM query expansion are
never invoked. -/
theorem C10_blank_query (o : Oracles) (metas : List Meta) (query : String)
    (k : Nat) (use_multi_query : Bool) (num_query_variations : Nat)
    (hybrid_enabled : Bool) (rrf_k : Option ℚ)
    (hq : strTrim query = "") :
    retrieve o metas query k use_multi_query num_query_variations
      hybrid_enabled rrf_k = ([], []) := by
  rw [retrieve.eq_def, if_pos hq]

/-- Witness for C10 at a whitespace-only query. -/
theorem C10_blank_query_witness :
    retrieve oracles0 [] "   " 3 true 3 true none = ([], []) :=
  C10_blank_query oracles0 [] "   " 3 true 3 true none (by decide)

end StudyTutor
